import Mathlib

/-!
Shallow embedding of the `water_report` repository
(`src/ingest_thames_reports.py` and `src/serve_water_report.py`).

Strings are modelled as `List Char`.  Python `str.lower` / `str.upper`
are modelled by the ASCII maps `Char.toLower` / `Char.toUpper` (the
inputs handled by this program are ASCII apart from the micro sign
`'µ'`, which both maps leave unchanged, exactly as Python does).
Python floats produced by `float(<decimal literal>)` are modelled
exactly as rationals `ℚ`.
-/

namespace WaterReport

/-- Model of Python whitespace: the character class of `str.strip()`
and of the regex `\s` restricted to ASCII. -/
def pyIsSpace (c : Char) : Bool :=
  c.toNat = 32 ∨ c.toNat = 9 ∨ c.toNat = 10 ∨ c.toNat = 13 ∨ c.toNat = 11 ∨ c.toNat = 12

/-- `'0'` to `'9'`, the regex class `\d` (ASCII). -/
def isDigitC (c : Char) : Bool := 48 ≤ c.toNat ∧ c.toNat ≤ 57

/-- `'A'` to `'Z'`, the regex class `[A-Z]`. -/
def isUpperAZ (c : Char) : Bool := 65 ≤ c.toNat ∧ c.toNat ≤ 90

/-- `'a'` to `'z'`. -/
def isLowerAZ (c : Char) : Bool := 97 ≤ c.toNat ∧ c.toNat ≤ 122

/-- Python `str.lower()` (ASCII model). -/
def lowerL (l : List Char) : List Char := l.map Char.toLower

/-- Python `str.upper()` (ASCII model). -/
def upperL (l : List Char) : List Char := l.map Char.toUpper

/-- Python `str.strip()`: drop leading and trailing whitespace. -/
def stripL (l : List Char) : List Char :=
  ((l.dropWhile pyIsSpace).reverse.dropWhile pyIsSpace).reverse

/-- Python `str.replace(ch, "")`: delete every occurrence of a character. -/
def removeCharL (x : Char) (l : List Char) : List Char := l.filter (fun c => c ≠ x)

/-- Value of a run of decimal digits (as read by Python `int`). -/
def natOfDigits (ds : List Char) : ℕ := ds.foldl (fun n c => 10 * n + (c.toNat - 48)) 0

/-- The exact rational value of the decimal literal
`[-]ip[.fp]` (what Python `float` is applied to; the literals in this
program are short enough that we model the value exactly). -/
def decValue (neg : Bool) (ip fp : List Char) : ℚ :=
  let n : ℤ := (natOfDigits ip * 10 ^ fp.length + natOfDigits fp : ℕ)
  mkRat (if neg then -n else n) (10 ^ fp.length)

/-- Greedy optional fractional part `(?:\.\d+)?` at the head of the list:
returns the digits of the fraction when the list starts with a dot
followed by at least one digit. -/
def fracPart : List Char → Option (List Char)
  | '.' :: cs =>
    match cs.span isDigitC with
    | ([], _) => none
    | (r, _) => some r
  | _ => none

/-- One attempted match of the regex `-?\d+(?:\.\d+)?` anchored at the
head of the list (greedy, as the Python `re` module matches it). -/
def matchDecimalAt : List Char → Option ℚ
  | [] => none
  | c :: cs =>
    if c = '-' then
      match cs with
      | d :: _ =>
        if isDigitC d then
          let (ip, rest) := cs.span isDigitC
          some (decValue true ip ((fracPart rest).getD []))
        else none
      | [] => none
    else if isDigitC c then
      let (ip, rest) := (c :: cs).span isDigitC
      some (decValue false ip ((fracPart rest).getD []))
    else none

/-- `re.findall(r"-?\d+(?:\.\d+)?", v)[0]`: the value of the leftmost
match of a signed-or-unsigned decimal literal, if any. -/
def findFirstDecimal : List Char → Option ℚ
  | [] => none
  | c :: cs =>
    match matchDecimalAt (c :: cs) with
    | some q => some q
    | none => findFirstDecimal cs

namespace Ingest

/-- `parse_float` of `src/ingest_thames_reports.py` (lines 95-108):
strip and lowercase; `""`, `"n/a"`, `"na"`, `"-"` are absent; delete
`'µ'` and `','`; a leading `'<'` is numeric zero; otherwise the first
decimal literal, absent when none is found. -/
def parseFloatL (l : List Char) : Option ℚ :=
  let v := lowerL (stripL l)
  if v = [] ∨ v = "n/a".data ∨ v = "na".data ∨ v = "-".data then none
  else
    let v1 := removeCharL 'µ' v
    let v2 := removeCharL ',' v1
    if v2.head? = some '<' then some 0 else findFirstDecimal v2

/-- String-level wrapper of the ingestion `parse_float`. -/
def parse_float (s : String) : Option ℚ := parseFloatL s.data

end Ingest

namespace Serve

/-- `parse_float` of `src/serve_water_report.py` (lines 328-335):
lowercase, strip, delete `','`; a leading `'<'` is numeric zero;
otherwise the first decimal literal, absent when none is found. -/
def parseFloatL (l : List Char) : Option ℚ :=
  let v := removeCharL ',' (stripL (lowerL l))
  if v.head? = some '<' then some 0 else findFirstDecimal v

/-- String-level wrapper of the serving `parse_float`. -/
def parse_float (s : String) : Option ℚ := parseFloatL s.data

end Serve

/-! ## Classifier / Normalizer (`norm`, `classify_parameter`) -/

/-- The character class `[a-z0-9\(\)]` of the `as`-qualifier regex. -/
def classAsQual (c : Char) : Bool := isLowerAZ c ∨ isDigitC c ∨ c = '(' ∨ c = ')'

/-- One attempted match of `\s+as\s+[a-z0-9\(\)]+` anchored at the head
of the list; on success returns the remainder after the match. -/
def matchAsQualAt (l : List Char) : Option (List Char) :=
  let (ws1, r1) := l.span pyIsSpace
  if ws1 = [] then none
  else
    match r1 with
    | 'a' :: 's' :: r2 =>
      let (ws2, r3) := r2.span pyIsSpace
      if ws2 = [] then none
      else
        let (cls, r4) := r3.span classAsQual
        if cls = [] then none else some r4
    | _ => none

/-- `re.sub(r"\s+as\s+[a-z0-9\(\)]+", "", s)`: delete every occurrence,
scanning left to right (fuel-based recursion; each match consumes at
least one character, so fuel `l.length` suffices). -/
def removeAsQualAux : ℕ → List Char → List Char
  | 0, l => l
  | _ + 1, [] => []
  | n + 1, c :: cs =>
    match matchAsQualAt (c :: cs) with
    | some rest => removeAsQualAux n rest
    | none => c :: removeAsQualAux n cs

def removeAsQual (l : List Char) : List Char := removeAsQualAux l.length l

/-- Scan for the closing parenthesis of the lazy `\(.*?\)` pattern: the
first `')'` with no newline before it ( `.` does not match a newline). -/
def findParenClose : List Char → Option (List Char)
  | [] => none
  | ')' :: cs => some cs
  | '\n' :: _ => none
  | _ :: cs => findParenClose cs

/-- `re.sub(r"\(.*?\)", "", s)`: delete every parenthesized annotation
(fuel-based recursion as in `removeAsQual`). -/
def removeParensAux : ℕ → List Char → List Char
  | 0, l => l
  | _ + 1, [] => []
  | n + 1, c :: cs =>
    if c = '(' then
      match findParenClose cs with
      | some rest => removeParensAux n rest
      | none => c :: removeParensAux n cs
    else c :: removeParensAux n cs

def removeParens (l : List Char) : List Char := removeParensAux l.length l

/-- The character class kept by `re.sub(r"[^a-z0-9\+\-\. ]", "", s)`. -/
def allowedNorm (c : Char) : Bool :=
  isLowerAZ c ∨ isDigitC c ∨ c = '+' ∨ c = '-' ∨ c = '.' ∨ c = ' '

/-- `re.sub(r"\s+", " ", s)`: replace each maximal whitespace run by a
single space.  The boolean argument records whether the previous
character was whitespace. -/
def collapseWsAux : List Char → Bool → List Char
  | [], _ => []
  | c :: cs, prevWs =>
    if pyIsSpace c then
      if prevWs then collapseWsAux cs true else ' ' :: collapseWsAux cs true
    else c :: collapseWsAux cs false

def collapseWs (l : List Char) : List Char := collapseWsAux l false

/-- `norm` of `src/ingest_thames_reports.py` (lines 22-29): lowercase
and strip, drop `as <token>` qualifiers, drop parenthesized
annotations, keep only `[a-z0-9\+\-\. ]`, collapse whitespace, strip. -/
def norm (l : List Char) : List Char :=
  let s1 := stripL (lowerL l)
  let s2 := removeAsQual s1
  let s3 := removeParens s2
  let s4 := s3.filter allowedNorm
  stripL (collapseWs s4)

/-- `HEAVY_METALS` (lines 31-34). -/
def HEAVY_METALS : List (List Char) :=
  ["aluminium", "antimony", "arsenic", "cadmium", "chromium",
   "copper", "iron", "lead", "manganese", "mercury", "nickel", "selenium"].map String.data

/-- `PESTICIDES` (lines 36-42). -/
def PESTICIDES : List (List Char) :=
  ["atrazine", "bentazone", "bromoxynil", "carbendazim", "carbetamide",
   "chlortoluron", "clopyralid", "dicamba", "dichlorprop", "diuron",
   "flufenacet", "fluroxypyr", "isoproturon", "linuron", "mcpa",
   "mecoprop", "metaldehyde", "metazachlor", "monuron", "pentachlorophenol",
   "picloram", "propyzamide", "quinmerac", "simazine", "triclopyr"].map String.data

/-- `CHEM_SYNONYMS` (lines 46-53). -/
def CHEM_SYNONYMS : List (List Char × List Char) :=
  [("12 dichloroethane", "1,2-dichloroethane"),
   ("chlorine residual", "chlorine"),
   ("nitrate nitrite calculation", "nitrate/nitrite calculation"),
   ("total organic carbon as c", "total organic carbon"),
   ("tetra  trichloroethene calc", "tetra- & trichloroethene calc"),
   ("hydrogen ion", "ph")].map (fun p => (p.1.data, p.2.data))

/-- `if n in CHEM_SYNONYMS: n = CHEM_SYNONYMS[n]` — fold a normalized
name through the synonym table. -/
def foldSyn (n : List Char) : List Char :=
  match CHEM_SYNONYMS.find? (fun p => p.1 = n) with
  | some p => p.2
  | none => n

/-- `classify_parameter` (lines 110-118). -/
def classify_parameter (pname : List Char) : String :=
  let n := foldSyn (norm pname)
  if n ∈ HEAVY_METALS then "heavy_metal"
  else if n ∈ PESTICIDES then "pesticide"
  else "chemical"

/-! ## Identifier Resolver (`_zone_variants`, lines 260-272) -/

/-- The anchored regex `^([A-Z]+)(\d+)$`: a nonempty run of capital
letters followed by a nonempty run of digits and nothing else. -/
def splitLettersDigits (z : List Char) : Option (List Char × List Char) :=
  let (ls, rest) := z.span isUpperAZ
  if ls ≠ [] ∧ rest ≠ [] ∧ rest.all isDigitC then some (ls, rest) else none

/-- `digits.lstrip("0") or "0"`. -/
def stripZeros (d : List Char) : List Char :=
  match d.dropWhile (fun c => c = '0') with
  | [] => ['0']
  | r => r

/-- `digits.zfill(3)`. -/
def zfill3 (d : List Char) : List Char := List.replicate (3 - d.length) '0' ++ d

/-- `list(dict.fromkeys(variants))`: deduplicate keeping the first
occurrence, preserving order. -/
def dedupFirstAux : List (List Char) → List (List Char) → List (List Char)
  | [], _ => []
  | x :: xs, seen => if x ∈ seen then dedupFirstAux xs seen else x :: dedupFirstAux xs (x :: seen)

def dedupFirst (l : List (List Char)) : List (List Char) := dedupFirstAux l []

/-- `_zone_variants` of `src/ingest_thames_reports.py` (lines 260-272). -/
def zone_variants (zone : List Char) : List (List Char) :=
  let z := upperL (stripL zone)
  match splitLettersDigits z with
  | none => [z]
  | some (letters, digits0) =>
    let digits := stripZeros digits0
    let variants := [letters ++ digits]
      ++ (if digits.length = 1 then [letters ++ '0' :: digits] else [])
      ++ (if digits.length ≤ 2 then [letters ++ zfill3 digits] else [])
    dedupFirst variants


/-! ## Store model

The SQLite tables of `SCHEMA` (lines 56-88), as association lists in
row order (`rowid` order, which is insertion order here; `ON CONFLICT
DO UPDATE` updates the conflicting row in place). -/

/-- The zone metadata dict produced by `rows_from_pdf`. -/
structure Meta where
  zone_title : Option String
  population : Option ℕ
  period_start : Option String
  period_end : Option String
deriving DecidableEq

/-- One row of the `zones` table. -/
structure ZoneRec where
  zone_title : Option String
  population : Option ℕ
  period_start : Option String
  period_end : Option String
  pdf_path : String
deriving DecidableEq

/-- One raw record dict produced by `rows_from_pdf` (all nine keys are
always present on rows it builds). -/
structure RawRow where
  parameter : String
  units : String
  regulatory_limit : String
  min : String
  mean : String
  max : String
  total : String
  contravening : String
  pct_contrav : String
deriving DecidableEq

/-- One row of the `measurements` table (the `id` autoincrement column
is not modelled; list position plays its role). -/
structure MRow where
  zone_code : String
  parameter : String
  parameter_norm : String
  category : String
  units : String
  regulatory_limit : String
  min_val : String
  mean_val : String
  max_val : String
  samples_total : Option ℕ
  samples_contrav : Option ℕ
  pct_contrav : String
deriving DecidableEq

/-- `int(re.findall(r"\d+", t)[0]) if re.findall(r"\d+", t) else None`:
the first maximal run of digits, if any. -/
def firstDigitRun : List Char → Option (List Char)
  | [] => none
  | c :: cs => if isDigitC c then some ((c :: cs).takeWhile isDigitC) else firstDigitRun cs

def parseCount (s : String) : Option ℕ := (firstDigitRun s.data).map natOfDigits

/-- The `measurements` row built for one raw record by
`insert_measurements` (lines 398-412). -/
def mrowOf (zone : String) (r : RawRow) : MRow where
  zone_code := zone
  parameter := r.parameter
  parameter_norm := String.mk (foldSyn (norm r.parameter.data))
  category := classify_parameter r.parameter.data
  units := r.units
  regulatory_limit := r.regulatory_limit
  min_val := r.min
  mean_val := r.mean
  max_val := r.max
  samples_total := parseCount r.total
  samples_contrav := parseCount r.contravening
  pct_contrav := r.pct_contrav

def upperS (s : String) : String := String.mk (upperL s.data)

def stripS (s : String) : String := String.mk (stripL s.data)

/-- `postcode.upper().strip()` — the canonical form under which
`upsert_postcode` stores a postcode. -/
def canonPC (pc : String) : String := String.mk (stripL (upperL pc.data))

/-- `INSERT ... ON CONFLICT(key) DO UPDATE`: update the existing row in
place, or append a new row. -/
def upsertA {α : Type} (k : String) (v : α) : List (String × α) → List (String × α)
  | [] => [(k, v)]
  | (k1, v1) :: t => if k1 = k then (k, v) :: t else (k1, v1) :: upsertA k v t

structure Store where
  zones : List (String × ZoneRec)
  postcodes : List (String × String)
  measurements : List MRow
deriving DecidableEq

def emptyStore : Store := ⟨[], [], []⟩

/-- `upsert_zone` (lines 378-389), effect of its single SQL statement. -/
def upsert_zone (s : Store) (zone_code : String) (meta : Meta) (pdf_path : String) : Store :=
  let zr : ZoneRec := ⟨meta.zone_title, meta.population, meta.period_start, meta.period_end, pdf_path⟩
  { s with zones := upsertA zone_code zr s.zones }

/-- `upsert_postcode` (lines 391-396), effect of its single SQL statement. -/
def upsert_postcode (s : Store) (postcode zone_code : String) : Store :=
  { s with postcodes := upsertA (canonPC postcode) zone_code s.postcodes }

/-- `DELETE FROM measurements WHERE zone_code = ?` (line 399). -/
def deleteMeasurements (s : Store) (zone_code : String) : Store :=
  { s with measurements := s.measurements.filter (fun m => m.zone_code ≠ zone_code) }

/-- One `INSERT INTO measurements ...` (lines 404-412). -/
def insertMeasurement (s : Store) (m : MRow) : Store :=
  { s with measurements := s.measurements ++ [m] }

/-- One SQL data statement issued on the connection. -/
inductive Op
  | upsertZone (zone_code : String) (meta : Meta) (pdf_path : String)
  | upsertPostcode (postcode zone_code : String)
  | deleteMeas (zone_code : String)
  | insertMeas (m : MRow)
deriving DecidableEq

def applyOp (s : Store) : Op → Store
  | .upsertZone z m p => upsert_zone s z m p
  | .upsertPostcode pc z => upsert_postcode s pc z
  | .deleteMeas z => deleteMeasurements s z
  | .insertMeas m => insertMeasurement s m

def applyOps (s : Store) (ops : List Op) : Store := ops.foldl applyOp s

/-- The statement sequence issued by `insert_measurements` (lines
398-412): delete all rows of the zone, then insert one row per record. -/
def insert_measurements (zone_code : String) (rows : List RawRow) : List Op :=
  Op.deleteMeas zone_code :: rows.map (fun r => Op.insertMeas (mrowOf zone_code r))

/-- The per-zone store sequence of `main` (lines 504-506): zone upsert,
postcode upsert, measurement replace. -/
def zoneStoreOps (zone : String) (meta : Meta) (pdfPath pc : String) (rows : List RawRow) : List Op :=
  Op.upsertZone zone meta pdfPath :: Op.upsertPostcode pc zone :: insert_measurements zone rows

/-- `fetch_zone_for_postcode` of `src/serve_water_report.py` (lines
310-313): `SELECT zone_code FROM postcodes WHERE
UPPER(postcode)=UPPER(?)` on the stripped query, first matching row. -/
def fetch_zone_for_postcode (pcs : List (String × String)) (q : String) : Option String :=
  (pcs.find? (fun p => upperS p.1 = upperS (stripS q))).map Prod.snd

/-! ## Transaction model

Python `sqlite3` with the default isolation level: data statements
join the implicitly opened transaction (the `pending` list, invisible
to readers); `conn.commit()` applies the whole pending list to the
committed store.  An exception between statements leaves `pending` in
place — the source never calls `rollback`. -/

structure DB where
  committed : Store
  pending : List Op
deriving DecidableEq

def execOps (db : DB) (ops : List Op) : DB := { db with pending := db.pending ++ ops }

def commitDB (db : DB) : DB := ⟨applyOps db.committed db.pending, []⟩

/-! ## Pipeline driver (`main`, lines 484-519)

External effects are an oracle: `download` says whether `download_pdf`
eventually returns a path for the zone (constant per zone — the cache
makes repeated fetches agree); `extract` is `rows_from_pdf`, with
`none` for a parse exception; `dbFail i = some k` injects a database
exception at row index `i` after `k` SQL statements of that row have
executed (the caught `except` of lines 516-517 — note it does not roll
back).  The pdf path stored for a zone is modelled as the zone string. -/

structure Env where
  download : String → Bool
  extract : String → Option (Meta × List RawRow)
  dbFail : ℕ → Option ℕ

structure DState where
  db : DB
  seen : List String
  extracted : List String
  idx : ℕ
deriving DecidableEq

def initState (s : Store) : DState := ⟨⟨s, []⟩, [], [], 0⟩

/-- One iteration of the row loop of `main` (lines 484-519). -/
def stepRow (env : Env) (st : DState) (row : String × Option String) : DState :=
  let idx1 := st.idx + 1
  match row.2 with
  | none => { st with idx := idx1 }
  | some zone =>
    if env.download zone then
      if zone ∈ st.seen then
        match env.dbFail st.idx with
        | some k => { st with db := execOps st.db ([Op.upsertPostcode row.1 zone].take k), idx := idx1 }
        | none => { st with db := commitDB (execOps st.db [Op.upsertPostcode row.1 zone]), idx := idx1 }
      else
        match env.extract zone with
        | none => { st with extracted := st.extracted ++ [zone], idx := idx1 }
        | some (meta, rows) =>
          let ops := zoneStoreOps zone meta zone row.1 rows
          match env.dbFail st.idx with
          | some k => { st with db := execOps st.db (ops.take k),
                                extracted := st.extracted ++ [zone], idx := idx1 }
          | none => { st with db := commitDB (execOps st.db ops),
                              seen := st.seen ++ [zone],
                              extracted := st.extracted ++ [zone], idx := idx1 }
    else { st with idx := idx1 }

def runRows (env : Env) : DState → List (String × Option String) → DState
  | st, [] => st
  | st, r :: rs => runRows env (stepRow env st r) rs

def runMain (env : Env) (s0 : Store) (rows : List (String × Option String)) : DState :=
  runRows env (initState s0) rows

/-! ## Document fetcher model (`download_pdf`, lines 338-374)

Network and filesystem effects are an oracle `FetchEnv`: `direct k` is
the outcome of `_requests_try` on candidate `k` (its internal 429
retry included); `browserAvailable` is whether `playwright` imports;
`browser k` is the byte payload `_browser_fetch` would write on
success (`none` covers every failure inside the browser strategy).
The pdf cache directory is a map from candidate to file bytes. -/

inductive DirectResult
  | resp (status : ℕ) (contentType : String) (content : List ℕ)
  | netError
deriving DecidableEq

structure FetchEnv where
  direct : List Char → DirectResult
  browserAvailable : Bool
  browser : List Char → Option (List ℕ)

def Cache : Type := List Char → Option (List ℕ)

def cacheWrite (c : Cache) (k : List Char) (b : List ℕ) : Cache :=
  fun k1 => if k1 = k then some b else c k1

/-- `out_path.exists() and out_path.stat().st_size > 1000` (line 346). -/
def cacheValid (c : Cache) (k : List Char) : Bool :=
  match c k with
  | some b => 1000 < b.length
  | none => false

def startsWithL (pre l : List Char) : Bool := l.take pre.length = pre

/-- Python substring test `needle in hay`. -/
def containsSub (needle : List Char) : List Char → Bool
  | [] => needle = []
  | c :: cs => startsWithL needle (c :: cs) ∨ containsSub needle cs

/-- `r.ok and ("pdf" in ct or r.content[:4] == b"%PDF")` (line 355);
`r.ok` is status < 400, and `%PDF` is bytes 37, 80, 68, 70. -/
def pdfShaped (st : ℕ) (ct : String) (content : List ℕ) : Bool :=
  st < 400 ∧ (containsSub "pdf".data (lowerL ct.data) ∨ content.take 4 = [37, 80, 68, 70])

/-- `_browser_fetch` (lines 291-336): immediately `False` when
`playwright` is unavailable, else the oracle outcome. -/
def browser_fetch (env : FetchEnv) (k : List Char) : Option (List ℕ) :=
  if env.browserAvailable then env.browser k else none

/-- The candidate loop body of `download_pdf` (lines 344-371): cache
hit, direct request, 401/403/406 browser fallback, 404/other/error
continue to the next candidate. -/
def downloadGo (env : FetchEnv) : List (List Char) → Cache → Option (List Char) × Cache
  | [], cache => (none, cache)
  | k :: rest, cache =>
    if cacheValid cache k then (some k, cache)
    else
      match env.direct k with
      | .netError => downloadGo env rest cache
      | .resp st ct content =>
        if pdfShaped st ct content then (some k, cacheWrite cache k content)
        else if st = 401 ∨ st = 403 ∨ st = 406 then
          match browser_fetch env k with
          | some b => (some k, cacheWrite cache k b)
          | none => downloadGo env rest cache
        else downloadGo env rest cache

/-- `download_pdf` (lines 338-374): try each zone variant in order;
`none` in the first component is the all-variants-exhausted failure
(`DocumentUnavailable`). -/
def download_pdf (env : FetchEnv) (zone : List Char) (cache : Cache) :
    Option (List Char) × Cache :=
  downloadGo env (zone_variants zone) cache


/-- The zone of the last input row whose postcode has the same
canonical form as `q` and which carries a zone identifier (the
mapping that last-write-wins postcode upserts leave behind). -/
def lastPC (q : String) : List (String × Option String) → Option String
  | [] => none
  | r :: rest =>
    match lastPC q rest with
    | some z => some z
    | none =>
      match r.2 with
      | some z => if canonPC r.1 = canonPC q then some z else none
      | none => none

/-! # Theorems -/

@[simp] theorem applyOps_nil (s : Store) : applyOps s [] = s := rfl

@[simp] theorem applyOps_cons (s : Store) (op : Op) (ops : List Op) :
    applyOps s (op :: ops) = applyOps (applyOp s op) ops := rfl

@[simp] theorem mrowOf_zone_code (z : String) (r : RawRow) : (mrowOf z r).zone_code = z := rfl

@[simp] theorem measurements_upsert_zone (s : Store) (z : String) (m : Meta) (p : String) :
    (upsert_zone s z m p).measurements = s.measurements := rfl

@[simp] theorem measurements_upsert_postcode (s : Store) (pc z : String) :
    (upsert_postcode s pc z).measurements = s.measurements := rfl

@[simp] theorem postcodes_upsert_zone (s : Store) (z : String) (m : Meta) (p : String) :
    (upsert_zone s z m p).postcodes = s.postcodes := rfl

@[simp] theorem postcodes_deleteMeasurements (s : Store) (z : String) :
    (deleteMeasurements s z).postcodes = s.postcodes := rfl

@[simp] theorem postcodes_insertMeasurement (s : Store) (m : MRow) :
    (insertMeasurement s m).postcodes = s.postcodes := rfl

theorem measurements_insertMeasOps (rows : List RawRow) (z : String) (s : Store) :
    (applyOps s (rows.map (fun r => Op.insertMeas (mrowOf z r)))).measurements
      = s.measurements ++ rows.map (mrowOf z) := by
  induction rows generalizing s with
  | nil => simp
  | cons r t ih => simp [applyOp, insertMeasurement, ih]

theorem postcodes_insertMeasOps (rows : List RawRow) (z : String) (s : Store) :
    (applyOps s (rows.map (fun r => Op.insertMeas (mrowOf z r)))).postcodes = s.postcodes := by
  induction rows generalizing s with
  | nil => simp
  | cons r t ih => simp [applyOp, ih]

/-- The committed effect of the full per-zone statement sequence on the
`measurements` table: all old rows of the zone go, the freshly built
rows are appended. -/
theorem measurements_zoneStoreOps (s : Store) (z : String) (meta : Meta)
    (path pc : String) (rows : List RawRow) :
    (applyOps s (zoneStoreOps z meta path pc rows)).measurements
      = s.measurements.filter (fun m => m.zone_code ≠ z) ++ rows.map (mrowOf z) := by
  simp [zoneStoreOps, insert_measurements, applyOp, measurements_insertMeasOps,
        deleteMeasurements]

theorem filter_ne_mrowOf (rows : List RawRow) (z : String) :
    (rows.map (mrowOf z)).filter (fun m => m.zone_code ≠ z) = [] := by
  induction rows with
  | nil => rfl
  | cons r t ih => simp [ih]

theorem filter_eq_mrowOf (rows : List RawRow) (z : String) :
    (rows.map (mrowOf z)).filter (fun m => m.zone_code = z) = rows.map (mrowOf z) := by
  induction rows with
  | nil => rfl
  | cons r t ih => simp [ih]

/-- C2: the per-zone store sequence (zone upsert, postcode upsert,
measurement replace) is idempotent on the measurement set: running it
twice with identical extracted records leaves the measurement table
identical (same rows, same order) to running it once, and the rows of
the zone after a run are exactly the inserted records — no duplicate
accumulation. -/
theorem C2_ingest_idempotent (s : Store) (zone : String) (meta : Meta)
    (path pc : String) (rows : List RawRow) :
    (applyOps (applyOps s (zoneStoreOps zone meta path pc rows))
        (zoneStoreOps zone meta path pc rows)).measurements
      = (applyOps s (zoneStoreOps zone meta path pc rows)).measurements
    ∧ (applyOps s (zoneStoreOps zone meta path pc rows)).measurements.filter
        (fun m => m.zone_code = zone)
      = rows.map (mrowOf zone) := by
  rw [measurements_zoneStoreOps, measurements_zoneStoreOps]
  constructor
  · rw [List.filter_append, filter_ne_mrowOf, List.filter_filter]
    simp
  · rw [List.filter_append, filter_eq_mrowOf, List.filter_filter]
    have h1 : ∀ m : MRow,
        (decide (m.zone_code = zone) && decide (¬m.zone_code = zone)) = false := by
      intro m
      by_cases h : m.zone_code = zone <;> simp [h]
    simp [h1]

theorem firstDigitRun_eq_none (l : List Char) :
    firstDigitRun l = none ↔ ∀ c ∈ l, isDigitC c = false := by
  induction l with
  | nil => simp [firstDigitRun]
  | cons c cs ih =>
    by_cases h : isDigitC c
    · simp [firstDigitRun, h]
    · simp only [Bool.not_eq_true] at h
      simp [firstDigitRun, h, ih]

theorem firstDigitRun_concat (a run b : List Char)
    (ha : ∀ c ∈ a, isDigitC c = false) (hr0 : run ≠ [])
    (hr : ∀ c ∈ run, isDigitC c = true)
    (hb : ∀ c, b.head? = some c → isDigitC c = false) :
    firstDigitRun (a ++ run ++ b) = some run := by
  induction a with
  | nil =>
    match run, hr0 with
    | r :: rt, _ =>
      have hr1 : isDigitC r = true := hr r (by simp)
      simp only [List.nil_append, List.cons_append, firstDigitRun, hr1, if_true]
      congr 1
      have : (rt ++ b).takeWhile isDigitC = rt ++ b.takeWhile isDigitC :=
        List.takeWhile_append_of_pos (fun c hc => hr c (by simp [hc]))
      have hbt : b.takeWhile isDigitC = [] := by
        cases b with
        | nil => rfl
        | cons x xs =>
          have := hb x rfl
          simp [List.takeWhile_cons, this]
      simp [List.takeWhile_cons, hr1, this, hbt]
  | cons c cs ih =>
    have hc : isDigitC c = false := ha c (by simp)
    have hstep : firstDigitRun (c :: (cs ++ run ++ b)) = firstDigitRun (cs ++ run ++ b) := by
      simp [firstDigitRun, hc]
    simp only [List.cons_append]
    rw [hstep]
    exact ih (fun x hx => ha x (by simp [hx]))

/-- C10: in the persisted measurement rows the sample-total and
contravening-count columns are the first maximal digit run of the raw
text as a non-negative integer, null when the text has no digit;
min, mean and max are stored as the original text unmodified. -/
theorem C10_measurement_coercion :
    (∀ (s : Store) (zone : String) (rows : List RawRow),
       (applyOps s (insert_measurements zone rows)).measurements
         = s.measurements.filter (fun m => m.zone_code ≠ zone) ++ rows.map (mrowOf zone))
    ∧ (∀ (zone : String) (r : RawRow),
         (mrowOf zone r).min_val = r.min ∧ (mrowOf zone r).mean_val = r.mean
         ∧ (mrowOf zone r).max_val = r.max
         ∧ (mrowOf zone r).samples_total = parseCount r.total
         ∧ (mrowOf zone r).samples_contrav = parseCount r.contravening)
    ∧ (∀ s : String, parseCount s = none ↔ ∀ c ∈ s.data, isDigitC c = false)
    ∧ (∀ a run b : List Char, (∀ c ∈ a, isDigitC c = false) → run ≠ [] →
         (∀ c ∈ run, isDigitC c = true) → (∀ c, b.head? = some c → isDigitC c = false) →
         parseCount (String.mk (a ++ run ++ b)) = some (natOfDigits run))
    ∧ parseCount "12/13" = some 12 ∧ parseCount "-" = none := by
  refine ⟨?_, ?_, ?_, ?_, by decide, by decide⟩
  · intro s zone rows
    simp [insert_measurements, applyOp, measurements_insertMeasOps, deleteMeasurements]
  · intro zone r
    exact ⟨rfl, rfl, rfl, rfl, rfl⟩
  · intro s
    rw [parseCount, Option.map_eq_none']
    exact firstDigitRun_eq_none s.data
  · intro a run b ha hr0 hr hb
    show (firstDigitRun (a ++ run ++ b)).map natOfDigits = some (natOfDigits run)
    rw [firstDigitRun_concat a run b ha hr0 hr hb]
    rfl

/-- Witness for C10: the hypothesis-bearing conjuncts evaluated at a
concrete split of `"ab12cd"`. -/
theorem C10_witness :
    parseCount (String.mk ("ab".data ++ "12".data ++ "cd".data)) = some 12 :=
  C10_measurement_coercion.2.2.2.1 "ab".data "12".data "cd".data
    (by decide) (by decide) (by decide) (by decide)

/-! ## Character-level lemmas for the ASCII case maps -/

theorem char_eq_of_toNat_eq {c d : Char} (h : c.toNat = d.toNat) : c = d :=
  Char.ext (UInt32.toNat.inj h)

theorem toUpper_toNat (c : Char) :
    (Char.toUpper c).toNat = if 97 ≤ c.toNat ∧ c.toNat ≤ 122 then c.toNat - 32 else c.toNat := by
  rw [Char.toUpper]
  split
  · rename_i h
    have hv : (c.toNat - 32).isValidChar := Or.inl (by omega)
    rw [Char.ofNat, dif_pos hv]
    rfl
  · rfl

theorem toLower_toNat (c : Char) :
    (Char.toLower c).toNat = if 65 ≤ c.toNat ∧ c.toNat ≤ 90 then c.toNat + 32 else c.toNat := by
  rw [Char.toLower]
  split
  · rename_i h
    have hv : (c.toNat + 32).isValidChar := Or.inl (by omega)
    rw [Char.ofNat, dif_pos hv]
    rfl
  · rfl

theorem pyIsSpace_toUpper (c : Char) : pyIsSpace (Char.toUpper c) = pyIsSpace c := by
  simp only [pyIsSpace, toUpper_toNat]
  split
  · rw [decide_eq_decide]
    omega
  · rfl

theorem pyIsSpace_toLower (c : Char) : pyIsSpace (Char.toLower c) = pyIsSpace c := by
  simp only [pyIsSpace, toLower_toNat]
  split
  · rw [decide_eq_decide]
    omega
  · rfl

theorem toUpper_eq_self {c : Char} (h : ¬(97 ≤ c.toNat ∧ c.toNat ≤ 122)) :
    Char.toUpper c = c := by
  rw [Char.toUpper, if_neg h]

theorem toUpper_toNat_not_lower (c : Char) :
    ¬(97 ≤ (Char.toUpper c).toNat ∧ (Char.toUpper c).toNat ≤ 122) := by
  rw [toUpper_toNat]
  split <;> omega

theorem toUpper_toUpper (c : Char) : Char.toUpper (Char.toUpper c) = Char.toUpper c :=
  toUpper_eq_self (toUpper_toNat_not_lower c)

theorem toLower_eq_mu {c : Char} (h : Char.toLower c = 'µ') : c = 'µ' := by
  have h1 := congrArg Char.toNat h
  rw [toLower_toNat] at h1
  apply char_eq_of_toNat_eq
  have hmu : ('µ' : Char).toNat = 181 := by decide
  rw [hmu]
  rw [hmu] at h1
  split at h1 <;> omega

theorem map_dropWhile_pyIsSpace (f : Char → Char)
    (hf : ∀ c, pyIsSpace (f c) = pyIsSpace c) (l : List Char) :
    (l.dropWhile pyIsSpace).map f = (l.map f).dropWhile pyIsSpace := by
  have hpf : (pyIsSpace ∘ f) = pyIsSpace := funext hf
  rw [List.dropWhile_map, hpf]

theorem map_stripL (f : Char → Char) (hf : ∀ c, pyIsSpace (f c) = pyIsSpace c)
    (l : List Char) : (stripL l).map f = stripL (l.map f) := by
  simp only [stripL, List.map_reverse, map_dropWhile_pyIsSpace f hf]

theorem upperL_stripL (l : List Char) : upperL (stripL l) = stripL (upperL l) :=
  map_stripL Char.toUpper pyIsSpace_toUpper l

theorem lowerL_stripL (l : List Char) : lowerL (stripL l) = stripL (lowerL l) :=
  map_stripL Char.toLower pyIsSpace_toLower l

theorem upperL_upperL (l : List Char) : upperL (upperL l) = upperL l := by
  simp only [upperL, List.map_map]
  congr 1
  funext c
  exact toUpper_toUpper c

theorem upperS_canonPC (pc : String) : upperS (canonPC pc) = canonPC pc := by
  unfold upperS canonPC
  congr 1
  rw [show upperL (stripL (upperL pc.data)) = stripL (upperL (upperL pc.data)) from
        upperL_stripL (upperL pc.data),
      upperL_upperL]

theorem upperS_stripS (q : String) : upperS (stripS q) = canonPC q := by
  unfold upperS stripS canonPC
  congr 1
  exact upperL_stripL q.data

/-! ## C7: classification -/

theorem pesticides_not_heavy : ∀ x ∈ PESTICIDES, x ∉ HEAVY_METALS := by decide

/-- C7: classification looks up the normalized, synonym-folded name in
the fixed heavy-metal set and the fixed pesticide set: membership in
the first yields heavy_metal, in the second pesticide, anything else
chemical; `classify("Lead")` is heavy_metal, `classify("Atrazine")` is
pesticide, `classify("Sodium")` is chemical, and synonym folding sends
the key of "Chlorine residual" to `normalize("Chlorine")`. -/
theorem C7_classification :
    (∀ p : List Char,
       (classify_parameter p = "heavy_metal" ↔ foldSyn (norm p) ∈ HEAVY_METALS)
       ∧ (classify_parameter p = "pesticide" ↔ foldSyn (norm p) ∈ PESTICIDES)
       ∧ (classify_parameter p = "chemical" ↔
            foldSyn (norm p) ∉ HEAVY_METALS ∧ foldSyn (norm p) ∉ PESTICIDES))
    ∧ classify_parameter "Lead".data = "heavy_metal"
    ∧ classify_parameter "Atrazine".data = "pesticide"
    ∧ classify_parameter "Sodium".data = "chemical"
    ∧ foldSyn (norm "Chlorine residual".data) = norm "Chlorine".data := by
  refine ⟨?_, by decide, by decide, by decide, by decide⟩
  intro p
  by_cases h1 : foldSyn (norm p) ∈ HEAVY_METALS
  · have h2 : foldSyn (norm p) ∉ PESTICIDES := fun hp => pesticides_not_heavy _ hp h1
    refine ⟨?_, ?_, ?_⟩ <;> simp [classify_parameter, h1, h2]
  · by_cases h2 : foldSyn (norm p) ∈ PESTICIDES
    · refine ⟨?_, ?_, ?_⟩ <;> simp [classify_parameter, h1, h2]
    · refine ⟨?_, ?_, ?_⟩ <;> simp [classify_parameter, h1, h2]

/-- Witness for C7: the characterization applied at the concrete
parameter name "Lead". -/
theorem C7_witness : classify_parameter "Lead".data = "heavy_metal" :=
  ((C7_classification.1 "Lead".data).1).mpr (by decide)

/-! ## C9: postcode mapping identity and upsert -/

theorem upsertA_good {α : Type} (pcs : List (String × α)) (k : String) (v : α)
    (good : ∀ p ∈ pcs, upperS p.1 = p.1) (hk : upperS k = k) :
    ∀ p ∈ upsertA k v pcs, upperS p.1 = p.1 := by
  induction pcs with
  | nil =>
    intro p hp
    simp only [upsertA, List.mem_singleton] at hp
    rw [hp]
    exact hk
  | cons h t ih =>
    intro p hp
    rw [upsertA] at hp
    by_cases he : h.1 = k
    · rw [if_pos he] at hp
      rcases List.mem_cons.mp hp with h1 | h1
      · rw [h1]
        exact hk
      · exact good p (List.mem_cons_of_mem _ h1)
    · rw [if_neg he] at hp
      rcases List.mem_cons.mp hp with h1 | h1
      · rw [h1]
        exact good h (List.mem_cons_self _ _)
      · exact ih (fun x hx => good x (List.mem_cons_of_mem _ hx)) p h1

theorem upsertA_keys {α : Type} (k : String) (v : α) (pcs : List (String × α)) :
    (upsertA k v pcs).map Prod.fst
      = if k ∈ pcs.map Prod.fst then pcs.map Prod.fst else pcs.map Prod.fst ++ [k] := by
  induction pcs with
  | nil => simp [upsertA]
  | cons h t ih =>
    rw [upsertA]
    by_cases he : h.1 = k
    · rw [if_pos he]
      simp [he]
    · rw [if_neg he]
      by_cases hm : k ∈ t.map Prod.fst
      · simp [hm, ih, Ne.symm he]
      · simp [hm, ih, Ne.symm he]

theorem upsertA_nodup {α : Type} (k : String) (v : α) (pcs : List (String × α))
    (nd : (pcs.map Prod.fst).Nodup) : ((upsertA k v pcs).map Prod.fst).Nodup := by
  rw [upsertA_keys]
  by_cases hm : k ∈ pcs.map Prod.fst
  · rw [if_pos hm]
    exact nd
  · rw [if_neg hm]
    simp [List.nodup_append, nd, hm]

theorem filter_keys_nil {α : Type} (t : List (String × α)) (k : String)
    (hk : k ∉ t.map Prod.fst) : t.filter (fun p => p.1 = k) = [] := by
  induction t with
  | nil => rfl
  | cons h r ih =>
    simp only [List.map_cons, List.mem_cons, not_or] at hk
    rw [List.filter_cons_of_neg (by simp only [decide_eq_true_eq]; exact fun hh => hk.1 hh.symm)]
    exact ih hk.2

theorem upsertA_filter_eq {α : Type} (k : String) (v : α) (pcs : List (String × α))
    (nd : (pcs.map Prod.fst).Nodup) :
    (upsertA k v pcs).filter (fun p => p.1 = k) = [(k, v)] := by
  induction pcs with
  | nil => simp [upsertA]
  | cons h t ih =>
    rw [upsertA]
    by_cases he : h.1 = k
    · rw [if_pos he]
      have hk : k ∉ t.map Prod.fst := by
        simp only [List.map_cons, List.nodup_cons] at nd
        rw [← he]
        exact nd.1
      rw [List.filter_cons_of_pos (by simp), filter_keys_nil t k hk]
    · rw [if_neg he]
      rw [List.filter_cons_of_neg (by simp only [decide_eq_true_eq]; exact he)]
      exact ih (by simp only [List.map_cons, List.nodup_cons] at nd; exact nd.2)

theorem fetch_upsertA (pcs : List (String × String))
    (good : ∀ p ∈ pcs, upperS p.1 = p.1) (pc z q : String) :
    fetch_zone_for_postcode (upsertA (canonPC pc) z pcs) q
      = if canonPC q = canonPC pc then some z
        else fetch_zone_for_postcode pcs q := by
  induction pcs with
  | nil =>
    rw [upsertA]
    by_cases hq : canonPC q = canonPC pc
    · rw [if_pos hq, fetch_zone_for_postcode,
          List.find?_cons_of_pos _ (by simp [upperS_stripS, upperS_canonPC, hq])]
      rfl
    · rw [if_neg hq, fetch_zone_for_postcode,
          List.find?_cons_of_neg _ (by
            simp only [decide_eq_true_eq, upperS_stripS, upperS_canonPC]
            exact fun hh => hq hh.symm)]
      rfl
  | cons h t ih =>
    have hgh : upperS h.1 = h.1 := good h (List.mem_cons_self _ _)
    have hgt : ∀ p ∈ t, upperS p.1 = p.1 := fun p hp => good p (List.mem_cons_of_mem _ hp)
    rw [upsertA]
    by_cases he : h.1 = canonPC pc
    · rw [if_pos he]
      by_cases hq : canonPC q = canonPC pc
      · rw [if_pos hq, fetch_zone_for_postcode,
            List.find?_cons_of_pos _ (by simp [upperS_stripS, upperS_canonPC, hq])]
        rfl
      · rw [if_neg hq, fetch_zone_for_postcode, fetch_zone_for_postcode,
            List.find?_cons_of_neg _ (by
              simp only [decide_eq_true_eq, upperS_stripS, upperS_canonPC]
              exact fun hh => hq hh.symm),
            List.find?_cons_of_neg _ (by
              simp only [decide_eq_true_eq, upperS_stripS, hgh, he, upperS_canonPC]
              exact fun hh => hq hh.symm)]
    · rw [if_neg he]
      by_cases hh : h.1 = canonPC q
      · have hq : ¬(canonPC q = canonPC pc) := fun hq1 => he (by rw [hh, hq1])
        rw [if_neg hq, fetch_zone_for_postcode, fetch_zone_for_postcode,
            List.find?_cons_of_pos _ (by simp [upperS_stripS, hgh, hh, upperS_canonPC]),
            List.find?_cons_of_pos _ (by simp [upperS_stripS, hgh, hh, upperS_canonPC])]
      · have hstep : fetch_zone_for_postcode (h :: upsertA (canonPC pc) z t) q
            = fetch_zone_for_postcode (upsertA (canonPC pc) z t) q := by
          rw [fetch_zone_for_postcode, fetch_zone_for_postcode,
              List.find?_cons_of_neg _ (by
                simp only [decide_eq_true_eq, upperS_stripS, hgh]
                exact hh)]
        have hstep2 : fetch_zone_for_postcode (h :: t) q = fetch_zone_for_postcode t q := by
          rw [fetch_zone_for_postcode, fetch_zone_for_postcode,
              List.find?_cons_of_neg _ (by
                simp only [decide_eq_true_eq, upperS_stripS, hgh]
                exact hh)]
        rw [hstep, hstep2]
        exact ih hgt

/-- C9: the postcode table key is the case- and space-normalized
canonical form `postcode.upper().strip()`; starting from a table whose
keys are of that form and pairwise distinct, an upsert keeps that
shape, leaves exactly one row for the postcode, and lookup through the
reader resolves every variant with the same canonical form to the
upserted zone. -/
theorem C9_postcode_upsert (s : Store) (pc z : String)
    (good : ∀ p ∈ s.postcodes, upperS p.1 = p.1)
    (nd : (s.postcodes.map Prod.fst).Nodup) :
    (∀ p ∈ (upsert_postcode s pc z).postcodes, upperS p.1 = p.1)
    ∧ ((upsert_postcode s pc z).postcodes.map Prod.fst).Nodup
    ∧ (upsert_postcode s pc z).postcodes.filter (fun p => p.1 = canonPC pc)
        = [(canonPC pc, z)]
    ∧ ∀ q, canonPC q = canonPC pc →
        fetch_zone_for_postcode (upsert_postcode s pc z).postcodes q = some z := by
  refine ⟨?_, ?_, ?_, ?_⟩
  · exact upsertA_good s.postcodes (canonPC pc) z good (upperS_canonPC pc)
  · exact upsertA_nodup (canonPC pc) z s.postcodes nd
  · exact upsertA_filter_eq (canonPC pc) z s.postcodes nd
  · intro q hq
    show fetch_zone_for_postcode (upsertA (canonPC pc) z s.postcodes) q = some z
    rw [fetch_upsertA s.postcodes good pc z q, if_pos hq]

/-- Witness for C9: a concrete table and the lookup of a case/space
variant of the upserted postcode. -/
theorem C9_witness :
    fetch_zone_for_postcode (upsert_postcode ⟨[], [("SW1 1AA", "Z1")], []⟩ " n19 5sj " "Z2").postcodes
        "N19 5SJ" = some "Z2" :=
  (C9_postcode_upsert ⟨[], [("SW1 1AA", "Z1")], []⟩ " n19 5sj " "Z2"
    (by decide) (by decide)).2.2.2 "N19 5SJ" (by decide)

/-! ## C4: identifier resolver -/

theorem digit_not_upper {c : Char} (h : isDigitC c = true) : isUpperAZ c = false := by
  simp only [isDigitC, decide_eq_true_eq] at h
  simp only [isUpperAZ, decide_eq_false_iff_not]
  omega

theorem dropWhile_no_ws (l : List Char) (h : ∀ c ∈ l, pyIsSpace c = false) :
    l.dropWhile pyIsSpace = l := by
  cases l with
  | nil => rfl
  | cons c cs => exact List.dropWhile_cons_of_neg (by simp [h c (List.mem_cons_self _ _)])

theorem stripL_no_ws (l : List Char) (h : ∀ c ∈ l, pyIsSpace c = false) : stripL l = l := by
  rw [stripL, dropWhile_no_ws l h,
      dropWhile_no_ws l.reverse (fun c hc => h c (List.mem_reverse.mp hc)),
      List.reverse_reverse]

theorem upperL_fix (l : List Char) (h : ∀ c ∈ l, Char.toUpper c = c) : upperL l = l := by
  have h1 : l.map Char.toUpper = l.map id := List.map_congr_left (fun a ha => by rw [h a ha]; rfl)
  simpa using h1

/-- C4 counterexample: on `"SLE02"` the resolver does not return
`[as-given, pad-to-2, pad-to-3]` deduplicated (which would be
`["SLE02","SLE002"]`): its first element is the zero-stripped `"SLE2"`,
not the identifier as given. -/
theorem C4_counterexample :
    zone_variants "SLE02".data = ["SLE2".data, "SLE02".data, "SLE002".data]
    ∧ zone_variants "SLE02".data ≠ ["SLE02".data, "SLE002".data]
    ∧ (zone_variants "SLE02".data).head? ≠ some "SLE02".data :=
  ⟨by decide, by decide, by decide⟩

/-- C4 (amended): the resolver strips and uppercases the raw
identifier; on a letters-then-digits match it first removes leading
zeros from the digit suffix, and returns the deduplicated ordered list
[zero-stripped spelling, zero-padded-to-2 (one-digit suffix only),
zero-padded-to-3 (at-most-two-digit suffix only)]; a non-matching
identifier yields the singleton stripped-uppercased identifier;
`variants("SLE2") = ["SLE2","SLE02","SLE002"]`, `variants("AB") = ["AB"]`. -/
theorem C4_variants :
    (∀ L D : List Char, L ≠ [] → (∀ c ∈ L, isUpperAZ c = true) → D ≠ [] →
       (∀ c ∈ D, isDigitC c = true) →
       zone_variants (L ++ D) =
         dedupFirst ([L ++ stripZeros D]
           ++ (if (stripZeros D).length = 1 then [L ++ '0' :: stripZeros D] else [])
           ++ (if (stripZeros D).length ≤ 2 then [L ++ zfill3 (stripZeros D)] else [])))
    ∧ (∀ z : List Char, splitLettersDigits (upperL (stripL z)) = none →
        zone_variants z = [upperL (stripL z)])
    ∧ zone_variants "SLE2".data = ["SLE2".data, "SLE02".data, "SLE002".data]
    ∧ zone_variants "AB".data = ["AB".data] := by
  refine ⟨?_, ?_, by decide, by decide⟩
  · intro L D hL hLA hD hDD
    have hfix : ∀ c ∈ L ++ D, Char.toUpper c = c := by
      intro c hc
      refine toUpper_eq_self ?_
      rcases List.mem_append.mp hc with h | h
      · have := hLA c h
        simp only [isUpperAZ, decide_eq_true_eq] at this
        omega
      · have := hDD c h
        simp only [isDigitC, decide_eq_true_eq] at this
        omega
    have hnws : ∀ c ∈ L ++ D, pyIsSpace c = false := by
      intro c hc
      simp only [pyIsSpace, decide_eq_false_iff_not]
      rcases List.mem_append.mp hc with h | h
      · have := hLA c h
        simp only [isUpperAZ, decide_eq_true_eq] at this
        omega
      · have := hDD c h
        simp only [isDigitC, decide_eq_true_eq] at this
        omega
    have hid : upperL (stripL (L ++ D)) = L ++ D := by
      rw [stripL_no_ws _ hnws, upperL_fix _ hfix]
    have htake : (L ++ D).takeWhile isUpperAZ = L := by
      rw [List.takeWhile_append_of_pos hLA]
      cases D with
      | nil => simp
      | cons d ds =>
        rw [List.takeWhile_cons_of_neg (by simp [digit_not_upper (hDD d (List.mem_cons_self _ _))])]
        simp
    have hdrop : (L ++ D).dropWhile isUpperAZ = D := by
      rw [List.dropWhile_append_of_pos hLA]
      cases D with
      | nil => simp
      | cons d ds =>
        exact List.dropWhile_cons_of_neg
          (by simp [digit_not_upper (hDD d (List.mem_cons_self _ _))])
    have hspan : (L ++ D).span isUpperAZ = (L, D) := by
      rw [List.span_eq_take_drop, htake, hdrop]
    have hsplit : splitLettersDigits (L ++ D) = some (L, D) := by
      unfold splitLettersDigits
      rw [hspan]
      exact if_pos ⟨hL, hD, by rw [List.all_eq_true]; exact fun c hc => hDD c hc⟩
    unfold zone_variants
    rw [hid]
    simp only [hsplit]
  · intro z hz
    unfold zone_variants
    simp only [hz]

/-- Witness for C4: the amended characterization applied at the
concrete split "SLE" ++ "02". -/
theorem C4_witness :
    zone_variants ("SLE".data ++ "02".data)
      = dedupFirst (["SLE".data ++ stripZeros "02".data]
          ++ (if (stripZeros "02".data).length = 1 then ["SLE".data ++ '0' :: stripZeros "02".data] else [])
          ++ (if (stripZeros "02".data).length ≤ 2 then ["SLE".data ++ zfill3 (stripZeros "02".data)] else [])) :=
  C4_variants.1 "SLE".data "02".data (by decide) (by decide) (by decide) (by decide)

/-! ## C5 and C6: numeric coercion -/

/-- C5 counterexample: by the claimed rule, `",<1"` is not absent and
has no leading `"<"`, so stripping separators leaves `"<1"` whose first
decimal literal 1.0 should be returned; the code strips separators
first and then sees the leading `"<"`, returning 0.0. -/
theorem C5_counterexample :
    Ingest.parse_float ",<1" = some 0 ∧ Ingest.parse_float ",<1" ≠ some 1 :=
  ⟨by decide, by decide⟩

/-- C5 (amended): after trim and lowercase, empty, "n/a", "na" and "-"
map to absent; micro signs and thousands separators are deleted and
only then a leading "<" maps to exactly 0.0; otherwise the first
signed-or-unsigned decimal literal of the remaining text is returned
(absent if none); coerce("<0.01") = 0.0, coerce("n/a") = absent,
coerce("1,234.5") = 1234.5 (the rational 2469/2), coerce("") = absent. -/
theorem C5_coercion :
    (∀ l : List Char,
       ((lowerL (stripL l) = [] ∨ lowerL (stripL l) = "n/a".data
          ∨ lowerL (stripL l) = "na".data ∨ lowerL (stripL l) = "-".data) →
         Ingest.parseFloatL l = none)
       ∧ (¬(lowerL (stripL l) = [] ∨ lowerL (stripL l) = "n/a".data
            ∨ lowerL (stripL l) = "na".data ∨ lowerL (stripL l) = "-".data) →
          ((removeCharL ',' (removeCharL 'µ' (lowerL (stripL l)))).head? = some '<' →
             Ingest.parseFloatL l = some 0)
          ∧ ((removeCharL ',' (removeCharL 'µ' (lowerL (stripL l)))).head? ≠ some '<' →
             Ingest.parseFloatL l
               = findFirstDecimal (removeCharL ',' (removeCharL 'µ' (lowerL (stripL l)))))))
    ∧ Ingest.parse_float "<0.01" = some 0
    ∧ Ingest.parse_float "n/a" = none
    ∧ Ingest.parse_float "1,234.5" = some (mkRat 2469 2)
    ∧ Ingest.parse_float "" = none := by
  refine ⟨?_, by decide, by decide, by decide, by decide⟩
  intro l
  constructor
  · intro h
    simp only [Ingest.parseFloatL]
    rw [if_pos h]
  · intro h
    constructor
    · intro hlt
      simp only [Ingest.parseFloatL]
      rw [if_neg h, if_pos hlt]
    · intro hlt
      simp only [Ingest.parseFloatL]
      rw [if_neg h, if_neg hlt]

/-- Witness for C5: the leading-"<" branch of the characterization at
the concrete input " <5 ". -/
theorem C5_witness : Ingest.parseFloatL " <5 ".data = some 0 :=
  ((C5_coercion.1 " <5 ".data).2 (by decide)).1 (by decide)

theorem mem_stripL {c : Char} {l : List Char} (h : c ∈ stripL l) : c ∈ l := by
  rw [stripL] at h
  have h1 := List.mem_reverse.mp h
  have h2 := (List.dropWhile_sublist (l := (l.dropWhile pyIsSpace).reverse) pyIsSpace).mem h1
  have h3 := List.mem_reverse.mp h2
  exact (List.dropWhile_sublist (l := l) pyIsSpace).mem h3

theorem removeCharL_not_mem {x : Char} {l : List Char} (h : x ∉ l) : removeCharL x l = l := by
  rw [removeCharL]
  rw [List.filter_eq_self]
  intro a ha
  simp only [decide_eq_true_eq]
  exact fun he => h (he ▸ ha)

/-- C6 counterexample: the serving coercion is not extensionally equal
to the ingestion coercion — on "µ<1" the ingester deletes the micro
sign before its "<" check and returns 0.0, the server returns 1.0. -/
theorem C6_counterexample :
    Ingest.parse_float "µ<1" = some 0 ∧ Serve.parse_float "µ<1" = some 1
    ∧ Ingest.parse_float "µ<1" ≠ Serve.parse_float "µ<1" :=
  ⟨by decide, by decide, by decide⟩

/-- C6 (amended): on every input string not containing the micro sign
'µ' the two parse_float implementations return the same result. -/
theorem C6_parse_float_agree (l : List Char) (h : 'µ' ∉ l) :
    Ingest.parseFloatL l = Serve.parseFloatL l := by
  by_cases habs : (lowerL (stripL l) = [] ∨ lowerL (stripL l) = "n/a".data
      ∨ lowerL (stripL l) = "na".data ∨ lowerL (stripL l) = "-".data)
  · have hing : Ingest.parseFloatL l = none := by
      simp only [Ingest.parseFloatL]
      rw [if_pos habs]
    rw [hing]
    have hl : stripL (lowerL l) = lowerL (stripL l) := (lowerL_stripL l).symm
    rcases habs with h0 | h0 | h0 | h0 <;>
      · simp only [Serve.parseFloatL, hl, h0]
        decide
  · have hmu : 'µ' ∉ lowerL (stripL l) := by
      intro hin
      rcases List.mem_map.mp hin with ⟨d, hd, hde⟩
      have hdm : d = 'µ' := toLower_eq_mu hde
      exact h (hdm ▸ mem_stripL hd)
    have hrm : removeCharL 'µ' (lowerL (stripL l)) = lowerL (stripL l) :=
      removeCharL_not_mem hmu
    simp only [Ingest.parseFloatL, Serve.parseFloatL]
    rw [if_neg habs, hrm, lowerL_stripL]

/-- Witness for C6: the agreement applied at the concrete input
"1,234.5", which contains no micro sign. -/
theorem C6_witness : Ingest.parseFloatL "1,234.5".data = Serve.parseFloatL "1,234.5".data :=
  C6_parse_float_agree "1,234.5".data (by decide)

/-! ## C8: fetch strategy chain -/

theorem pdfShaped_false_of_blocked {st : ℕ} (h : st = 401 ∨ st = 403 ∨ st = 406)
    (ct : String) (content : List ℕ) : pdfShaped st ct content = false := by
  simp only [pdfShaped, decide_eq_false_iff_not]
  rintro ⟨hlt, _⟩
  omega

theorem downloadGo_all_blocked (env : FetchEnv) (ks : List (List Char)) (cache : Cache)
    (hb : env.browserAvailable = false)
    (hall : ∀ k ∈ ks, cacheValid cache k = false
       ∧ ∃ ct content, env.direct k = DirectResult.resp 403 ct content) :
    downloadGo env ks cache = (none, cache) := by
  induction ks with
  | nil => rfl
  | cons k rest ih =>
    obtain ⟨hc, ct, content, hdir⟩ := hall k (List.mem_cons_self _ _)
    have h1 : pdfShaped 403 ct content = false :=
      pdfShaped_false_of_blocked (Or.inr (Or.inl rfl)) ct content
    have hbf : browser_fetch env k = none := by
      rw [browser_fetch, hb]
      rfl
    rw [downloadGo]
    simp only [hc, hdir, h1, hbf, Bool.false_eq_true, if_false]
    rw [if_pos (by simp)]
    exact ih (fun x hx => hall x (List.mem_cons_of_mem _ hx))

/-- C8: (1) for a zone whose first candidate gets a direct 401/403/406
answer with no valid cache entry, a successful browser-automation
fetch persists the document bytes to the cache and the fetcher returns
that candidate; (2) when browser automation is unavailable in the
runtime, a blocked candidate is an immediate failure and the fetcher
continues with the next candidate instead of crashing; (3) when every
candidate is blocked and the browser is unavailable, the fetcher
returns no document (`DocumentUnavailable`) and writes nothing. -/
theorem C8_fetch_chain :
    (∀ (env : FetchEnv) (zone k : List Char) (rest : List (List Char))
       (cache : Cache) (bytes : List ℕ) (st : ℕ) (ct : String) (content : List ℕ),
       zone_variants zone = k :: rest →
       cacheValid cache k = false →
       env.direct k = DirectResult.resp st ct content →
       (st = 401 ∨ st = 403 ∨ st = 406) →
       env.browserAvailable = true →
       env.browser k = some bytes →
       (download_pdf env zone cache).1 = some k
       ∧ (download_pdf env zone cache).2 k = some bytes)
    ∧ (∀ (env : FetchEnv) (k : List Char) (rest : List (List Char)) (cache : Cache)
         (st : ℕ) (ct : String) (content : List ℕ),
       env.browserAvailable = false →
       cacheValid cache k = false →
       env.direct k = DirectResult.resp st ct content →
       (st = 401 ∨ st = 403 ∨ st = 406) →
       downloadGo env (k :: rest) cache = downloadGo env rest cache)
    ∧ (∀ (env : FetchEnv) (zone : List Char) (cache : Cache),
       env.browserAvailable = false →
       (∀ k ∈ zone_variants zone, cacheValid cache k = false
          ∧ ∃ ct content, env.direct k = DirectResult.resp 403 ct content) →
       download_pdf env zone cache = (none, cache)) := by
  refine ⟨?_, ?_, ?_⟩
  · intro env zone k rest cache bytes st ct content hvar hc hdir hst hb hbr
    have hbf : browser_fetch env k = some bytes := by
      rw [browser_fetch, hb, if_pos rfl]
      exact hbr
    have h1 : pdfShaped st ct content = false := pdfShaped_false_of_blocked hst ct content
    have hgo : downloadGo env (k :: rest) cache = (some k, cacheWrite cache k bytes) := by
      rw [downloadGo]
      simp only [hc, hdir, h1, hbf, Bool.false_eq_true, if_false]
      rw [if_pos hst]
    rw [download_pdf, hvar, hgo]
    refine ⟨rfl, ?_⟩
    simp [cacheWrite]
  · intro env k rest cache st ct content hb hc hdir hst
    have h1 : pdfShaped st ct content = false := pdfShaped_false_of_blocked hst ct content
    have hbf : browser_fetch env k = none := by
      rw [browser_fetch, hb]
      rfl
    rw [downloadGo]
    simp only [hc, hdir, h1, hbf, Bool.false_eq_true, if_false]
    rw [if_pos hst]
  · intro env zone cache hb hall
    rw [download_pdf]
    exact downloadGo_all_blocked env (zone_variants zone) cache hb hall

/-- Witness for C8: a concrete environment where every direct request
is answered 403 and the browser strategy succeeds with bytes [1, 2]:
the first variant of "SLE2" is fetched and cached. -/
theorem C8_witness :
    (download_pdf ⟨fun _ => DirectResult.resp 403 "" [], true, fun _ => some [1, 2]⟩
        "SLE2".data (fun _ => none)).1 = some "SLE2".data
    ∧ (download_pdf ⟨fun _ => DirectResult.resp 403 "" [], true, fun _ => some [1, 2]⟩
        "SLE2".data (fun _ => none)).2 "SLE2".data = some [1, 2] :=
  C8_fetch_chain.1 ⟨fun _ => DirectResult.resp 403 "" [], true, fun _ => some [1, 2]⟩
    "SLE2".data "SLE2".data ["SLE02".data, "SLE002".data] (fun _ => none) [1, 2]
    403 "" [] (by decide) rfl rfl (Or.inr (Or.inl rfl)) rfl rfl

/-! ## C1: the per-zone replace is not rolled back on failure -/

/-- C1: evaluation of the driver at a failing batch.  Zone Z1 starts
with one committed measurement row; its re-ingestion raises after four
SQL statements (zone upsert, postcode upsert, measurement DELETE, one
of two INSERTs): the row loop catches the exception without a
rollback, so the next successful row (zone Z2) commits Z1's dangling
partial replace — the committed measurement set for Z1 is afterwards
neither the old set nor the new set but a partial mix. -/
theorem C1_uncommitted_partial_replace :
    let old : MRow := ⟨"Z1", "Sodium", "sodium", "chemical", "", "", "1", "2", "3", none, none, ""⟩
    let r1 : RawRow := ⟨"Iron", "mg/l", "0.2", "0.01", "0.05", "0.1", "12", "0", ""⟩
    let r2 : RawRow := ⟨"Lead", "mg/l", "0.01", "0", "0", "0", "12", "0", ""⟩
    let env : Env := ⟨fun _ => true,
      fun z => if z = "Z1" then some (⟨some "T1", none, none, none⟩, [r1, r2])
               else some (⟨some "T2", none, none, none⟩, []),
      fun i => if i = 0 then some 4 else none⟩
    let s0 : Store := ⟨[], [], [old]⟩
    let final := runMain env s0 [("PC1", some "Z1"), ("PC2", some "Z2")]
    s0.measurements.filter (fun m => m.zone_code = "Z1") = [old]
    ∧ final.db.committed.measurements.filter (fun m => m.zone_code = "Z1")
        = [mrowOf "Z1" r1]
    ∧ [mrowOf "Z1" r1] ≠ [old]
    ∧ [mrowOf "Z1" r1] ≠ [mrowOf "Z1" r1, mrowOf "Z1" r2] := by
  refine ⟨by decide, by decide, by decide, by decide⟩

/-! ## C3: at-most-once extraction per zone -/

theorem stepRow_none (env : Env) (st : DState) (pc : String) :
    stepRow env st (pc, none) = { st with idx := st.idx + 1 } := rfl

theorem stepRow_seen (env : Env) (st : DState) (pc z : String)
    (hd : env.download z = true) (hs : z ∈ st.seen) (hf : env.dbFail st.idx = none) :
    stepRow env st (pc, some z)
      = { st with db := commitDB (execOps st.db [Op.upsertPostcode pc z]),
                  idx := st.idx + 1 } := by
  simp only [stepRow, hd, if_true, hf]
  rw [if_pos hs]

theorem stepRow_new (env : Env) (st : DState) (pc z : String) (meta : Meta)
    (rrows : List RawRow) (hd : env.download z = true) (hs : z ∉ st.seen)
    (he : env.extract z = some (meta, rrows)) (hf : env.dbFail st.idx = none) :
    stepRow env st (pc, some z)
      = { st with db := commitDB (execOps st.db (zoneStoreOps z meta z pc rrows)),
                  seen := st.seen ++ [z],
                  extracted := st.extracted ++ [z],
                  idx := st.idx + 1 } := by
  simp only [stepRow, hd, if_true, hf, he]
  rw [if_neg hs]

theorem commit_exec_of_empty (db : DB) (hp : db.pending = []) (ops : List Op) :
    commitDB (execOps db ops) = ⟨applyOps db.committed ops, []⟩ := by
  simp [commitDB, execOps, hp]

theorem postcodes_zoneStoreOps (s : Store) (z : String) (meta : Meta)
    (path pc : String) (rows : List RawRow) :
    (applyOps s (zoneStoreOps z meta path pc rows)).postcodes
      = upsertA (canonPC pc) z s.postcodes := by
  simp [zoneStoreOps, insert_measurements, applyOp, postcodes_insertMeasOps,
        upsert_postcode]

theorem runRows_count (env : Env) (hdl : ∀ z, env.download z = true)
    (hex : ∀ z, (env.extract z).isSome) (hdb : ∀ i, env.dbFail i = none) :
    ∀ (rows : List (String × Option String)) (st : DState) (z : String),
      (runRows env st rows).extracted.count z
        = st.extracted.count z
          + (if z ∈ st.seen then 0
             else if z ∈ rows.filterMap Prod.snd then 1 else 0) := by
  intro rows
  induction rows with
  | nil =>
    intro st z
    simp [runRows]
  | cons r rest ih =>
    intro st z
    obtain ⟨pc, oz⟩ := r
    rw [runRows]
    cases oz with
    | none =>
      rw [stepRow_none, ih]
      simp [List.filterMap_cons]
    | some z1 =>
      by_cases hs : z1 ∈ st.seen
      · rw [stepRow_seen env st pc z1 (hdl z1) hs (hdb st.idx), ih]
        by_cases hz : z = z1
        · subst hz
          simp [hs, List.filterMap_cons]
        · have hmi : (z ∈ z1 :: rest.filterMap Prod.snd) = (z ∈ rest.filterMap Prod.snd) := by
            simp [List.mem_cons, hz]
          simp only [List.filterMap_cons, hmi]
      · obtain ⟨⟨meta, rrows⟩, hval⟩ := Option.isSome_iff_exists.mp (hex z1)
        rw [stepRow_new env st pc z1 meta rrows (hdl z1) hs hval (hdb st.idx), ih]
        by_cases hz : z = z1
        · subst hz
          simp [hs, List.filterMap_cons, List.count_append, List.mem_append]
        · have hmi : (z ∈ z1 :: rest.filterMap Prod.snd) = (z ∈ rest.filterMap Prod.snd) := by
            simp [List.mem_cons, hz]
          have hms : (z ∈ st.seen ++ [z1]) = (z ∈ st.seen) := by
            simp [List.mem_append, hz]
          have hce : (st.extracted ++ [z1]).count z = st.extracted.count z := by
            simp [List.count_append, List.count_cons, Ne.symm hz]
          simp only [List.filterMap_cons, hmi, hms, hce]

theorem stepRow_invariants (env : Env) (hdl : ∀ z, env.download z = true)
    (hex : ∀ z, (env.extract z).isSome) (hdb : ∀ i, env.dbFail i = none)
    (st : DState) (r : String × Option String) (hp : st.db.pending = [])
    (good : ∀ p ∈ st.db.committed.postcodes, upperS p.1 = p.1) :
    (stepRow env st r).db.pending = []
    ∧ ∀ p ∈ (stepRow env st r).db.committed.postcodes, upperS p.1 = p.1 := by
  obtain ⟨pc, oz⟩ := r
  cases oz with
  | none =>
    rw [stepRow_none]
    exact ⟨hp, good⟩
  | some z1 =>
    by_cases hs : z1 ∈ st.seen
    · rw [stepRow_seen env st pc z1 (hdl z1) hs (hdb st.idx),
          commit_exec_of_empty st.db hp]
      refine ⟨rfl, ?_⟩
      show ∀ p ∈ (applyOps st.db.committed [Op.upsertPostcode pc z1]).postcodes, _
      have hA : (applyOps st.db.committed [Op.upsertPostcode pc z1]).postcodes
          = upsertA (canonPC pc) z1 st.db.committed.postcodes := rfl
      rw [hA]
      exact upsertA_good _ _ _ good (upperS_canonPC pc)
    · obtain ⟨⟨meta, rrows⟩, hval⟩ := Option.isSome_iff_exists.mp (hex z1)
      rw [stepRow_new env st pc z1 meta rrows (hdl z1) hs hval (hdb st.idx),
          commit_exec_of_empty st.db hp]
      refine ⟨rfl, ?_⟩
      show ∀ p ∈ (applyOps st.db.committed (zoneStoreOps z1 meta z1 pc rrows)).postcodes, _
      rw [postcodes_zoneStoreOps]
      exact upsertA_good _ _ _ good (upperS_canonPC pc)

theorem runRows_fetch (env : Env) (hdl : ∀ z, env.download z = true)
    (hex : ∀ z, (env.extract z).isSome) (hdb : ∀ i, env.dbFail i = none) :
    ∀ (rows : List (String × Option String)) (st : DState),
      st.db.pending = [] →
      (∀ p ∈ st.db.committed.postcodes, upperS p.1 = p.1) →
      ∀ q, fetch_zone_for_postcode (runRows env st rows).db.committed.postcodes q
        = (match lastPC q rows with
           | some z => some z
           | none => fetch_zone_for_postcode st.db.committed.postcodes q) := by
  intro rows
  induction rows with
  | nil =>
    intro st hp good q
    simp [runRows, lastPC]
  | cons r rest ih =>
    intro st hp good q
    obtain ⟨pc, oz⟩ := r
    rw [runRows]
    have hinv := stepRow_invariants env hdl hex hdb st (pc, oz) hp good
    rw [ih _ hinv.1 hinv.2 q]
    cases oz with
    | none =>
      rw [stepRow_none]
      cases hrest : lastPC q rest with
      | some w => simp [lastPC, hrest]
      | none => simp [lastPC, hrest]
    | some z1 =>
      have hup : (stepRow env st (pc, some z1)).db.committed.postcodes
          = upsertA (canonPC pc) z1 st.db.committed.postcodes := by
        by_cases hs : z1 ∈ st.seen
        · rw [stepRow_seen env st pc z1 (hdl z1) hs (hdb st.idx),
              commit_exec_of_empty st.db hp]
          rfl
        · obtain ⟨⟨meta, rrows⟩, hval⟩ := Option.isSome_iff_exists.mp (hex z1)
          rw [stepRow_new env st pc z1 meta rrows (hdl z1) hs hval (hdb st.idx),
              commit_exec_of_empty st.db hp]
          exact postcodes_zoneStoreOps _ _ _ _ _ _
      cases hrest : lastPC q rest with
      | some w => simp [lastPC, hrest]
      | none =>
        simp only [lastPC, hrest]
        rw [hup, fetch_upsertA st.db.committed.postcodes good pc z1 q]
        by_cases hcq : canonPC q = canonPC pc
        · simp [hcq]
        · simp [hcq, Ne.symm hcq]

/-- C3 counterexample: with a document whose parse raises for zone Z
(two postcodes map to Z in the batch), the driver marks Z as seen only
on success, so the Extractor is invoked twice — not exactly once —
and neither postcode ends up mapped. -/
theorem C3_counterexample :
    let env : Env := ⟨fun _ => true, fun _ => none, fun _ => none⟩
    let final := runMain env emptyStore [("P1", some "Z"), ("P2", some "Z")]
    2 ≤ ([("P1", some "Z"), ("P2", some "Z")].filter
          (fun r : String × Option String => r.2 = some "Z")).length
    ∧ final.extracted.count "Z" = 2
    ∧ fetch_zone_for_postcode final.db.committed.postcodes "P1" = none := by
  refine ⟨by decide, by decide, by decide⟩

/-- C3 (amended): in a batch where every fetch succeeds, no extraction
raises and no store statement fails, a zone carried by two or more
rows is extracted exactly once, and every postcode whose last
zone-carrying occurrence in the batch carries that zone ends up mapped
to it in the store. -/
theorem C3_extract_once (env : Env)
    (hdl : ∀ z, env.download z = true)
    (hex : ∀ z, (env.extract z).isSome)
    (hdb : ∀ i, env.dbFail i = none)
    (s0 : Store) (good : ∀ p ∈ s0.postcodes, upperS p.1 = p.1)
    (rows : List (String × Option String)) (z : String)
    (hocc : 2 ≤ (rows.filter (fun r => r.2 = some z)).length) :
    (runMain env s0 rows).extracted.count z = 1
    ∧ ∀ pc : String, lastPC pc rows = some z →
        fetch_zone_for_postcode (runMain env s0 rows).db.committed.postcodes pc = some z := by
  constructor
  · rw [runMain, runRows_count env hdl hex hdb rows (initState s0) z]
    have hzin : z ∈ rows.filterMap Prod.snd := by
      have hne : rows.filter (fun r => r.2 = some z) ≠ [] := by
        intro hnil
        rw [hnil] at hocc
        exact absurd hocc (by decide)
      obtain ⟨r, hr⟩ := List.exists_mem_of_ne_nil _ hne
      have hmem := List.mem_of_mem_filter hr
      have hprop := List.of_mem_filter hr
      simp only [decide_eq_true_eq] at hprop
      exact List.mem_filterMap.mpr ⟨r, hmem, hprop⟩
    simp [initState, hzin]
  · intro pc hlast
    rw [runMain, runRows_fetch env hdl hex hdb rows (initState s0) rfl good pc, hlast]

/-- Witness for C3: a two-row batch for the same zone in a benign
environment — extraction count one and the first postcode mapped. -/
theorem C3_witness :
    (runMain ⟨fun _ => true, fun _ => some (⟨none, none, none, none⟩, []), fun _ => none⟩
        emptyStore [("P1", some "Z"), ("P2", some "Z")]).extracted.count "Z" = 1
    ∧ fetch_zone_for_postcode
        (runMain ⟨fun _ => true, fun _ => some (⟨none, none, none, none⟩, []), fun _ => none⟩
          emptyStore [("P1", some "Z"), ("P2", some "Z")]).db.committed.postcodes
        "P1" = some "Z" := by
  have h := C3_extract_once
    ⟨fun _ => true, fun _ => some (⟨none, none, none, none⟩, []), fun _ => none⟩
    (fun _ => rfl) (fun _ => rfl) (fun _ => rfl) emptyStore (by simp [emptyStore])
    [("P1", some "Z"), ("P2", some "Z")] "Z" (by decide)
  exact ⟨h.1, h.2 "P1" (by decide)⟩


end WaterReport
